import Mathlib

/-!
Verification of the combinational ALU in `src/alu.py` (an nMigen `Elaboratable`).

Modelling conventions for the shallow embedding:

* W-bit signal values are natural numbers; input signals `A`, `B` hold values
  below `2 ^ W` (the hardware guarantees this; theorems carry it as a
  hypothesis where it matters).  One-bit flags are `Bool`.
* All assignments in `Alu.elaborate` are to the combinational domain
  (`m.d.comb`), so one evaluation is a pure function of `(A, B, func)`: there
  is no state between evaluations.  A signal that is read and driven inside
  the same active `Case` (e.g. `self.carry` in the ROL/ROR output expression,
  or `self.OUT` in the ADD/SUB overflow expression) reads its settled value,
  i.e. the value driven by that same case.  A combinational signal not driven
  by the active case takes its declared reset value (`0` for `OUT`, `carry`
  and `overflow`).
* nMigen slices `expr[:W]` become `% 2 ^ W`; `expr[i]` becomes `Nat.testBit`.
  `A - B` on unsigned W-bit operands is a signed (W+1)-bit value in nMigen, so
  its bit pattern is `(A - B) mod 2^(W+1)`; with `B < 2 ^ W` this is
  `(A + 2^(W+1) - B) % 2^(W+1)` over ℕ.  `~A` on a W-bit operand denotes the
  bitwise complement inside W bits, i.e. `2 ^ W - 1 - A` for `A < 2 ^ W`.
* The operation selector is a plain natural number carrying the `AluFunc`
  IntEnum encoding; every value without a matching `Case` falls to `Default`.
-/

-- The `AluFunc` IntEnum encoding from `src/alu.py`.
namespace AluFunc

def NONE : ℕ := 0

def ADD : ℕ := 1

def SUB : ℕ := 2

def NEG : ℕ := 8

def AND : ℕ := 9

def OR : ℕ := 10

def ROL : ℕ := 11

def ROR : ℕ := 12

def LSL : ℕ := 13

def LSR : ℕ := 14

def ASR : ℕ := 15

def CLC : ℕ := 16

def CLV : ℕ := 17

end AluFunc

/-- One evaluation's outputs: the W-bit result and the five flag bits. -/
structure AluResult where
  OUT : ℕ
  zero : Bool
  carry : Bool
  negative : Bool
  overflow : Bool
  signed : Bool
deriving Repr, DecidableEq

/-- The `with m.Switch(self.func)` block of `Alu.elaborate`: the settled values
of `(OUT, carry, overflow)` for the active case.  Signals not driven by the
active case take their reset value (`0`/`false`). -/
def aluSwitch (W A B func : ℕ) : ℕ × Bool × Bool :=
  if func = AluFunc.ADD then
    let OUT := (A + B) % 2 ^ W
    (OUT, (A + B).testBit W,
      (A.testBit (W - 1) == B.testBit (W - 1)) &&
        (A.testBit (W - 1) != OUT.testBit (W - 1)))
  else if func = AluFunc.SUB then
    let OUT := (A + 2 ^ W - B) % 2 ^ W
    (OUT, ((A + 2 ^ (W + 1) - B) % 2 ^ (W + 1)).testBit W,
      (A.testBit (W - 1) != B.testBit (W - 1)) &&
        (A.testBit (W - 1) != OUT.testBit (W - 1)))
  else if func = AluFunc.NEG then
    (2 ^ W - 1 - A, false, false)
  else if func = AluFunc.AND then
    (A &&& B, false, false)
  else if func = AluFunc.OR then
    (A ||| B, false, false)
  else if func = AluFunc.ROL then
    let carry := A.testBit (W - 1)
    (((A <<< 1) ||| carry.toNat) % 2 ^ W, carry, false)
  else if func = AluFunc.ROR then
    let carry := A.testBit 0
    ((A >>> 1) ||| (carry.toNat <<< (W - 1)) % 2 ^ W, carry, false)
  else if func = AluFunc.LSL then
    ((A <<< 1) % 2 ^ W, A.testBit (W - 1), false)
  else if func = AluFunc.LSR then
    ((A >>> 1) % 2 ^ W, A.testBit 0, false)
  else if func = AluFunc.ASR then
    let sign := A.testBit (W - 1)
    ((((A % 2 ^ (W - 1)) >>> 1) ||| sign.toNat <<< (W - 1)) % 2 ^ W,
      A.testBit 0, false)
  else if func = AluFunc.CLC then
    (0, false, false)
  else if func = AluFunc.CLV then
    (0, false, false)
  else
    (A, false, false)

/-- One combinational evaluation of the ALU: the switch above plus the three
unconditional derivations `signed = negative ^ overflow`, `zero = (OUT == 0)`
and `negative = OUT[W-1]` from `Alu.elaborate`. -/
def evaluate (W A B func : ℕ) : AluResult :=
  let s := aluSwitch W A B func
  let negative := s.1.testBit (W - 1)
  { OUT := s.1
    zero := decide (s.1 = 0)
    carry := s.2.1
    negative := negative
    overflow := s.2.2
    signed := negative.xor s.2.2 }

/-- C3: for every opcode (recognized or not) and all operands in range,
`zero == (OUT == 0)`, `negative == bit W-1 of OUT`, and
`signed == negative XOR overflow`, all derived from the final `OUT` and
`overflow` of that same evaluation. -/
theorem flags_always_derived (W A B func : ℕ) :
    (evaluate W A B func).zero = decide ((evaluate W A B func).OUT = 0) ∧
    (evaluate W A B func).negative = (evaluate W A B func).OUT.testBit (W - 1) ∧
    (evaluate W A B func).signed =
      ((evaluate W A B func).negative).xor (evaluate W A B func).overflow :=
  ⟨rfl, rfl, rfl⟩

/-- C6: for CLC and CLV the code drives neither `OUT` nor (respectively)
`overflow`/`carry`, so they settle to their reset value: `OUT = 0` for every
`A` and `B` (not pass-through of `A`), hence `zero = 1` and `negative = 0`,
with `carry` forced to `0` by CLC and `overflow` forced to `0` by CLV. -/
theorem clc_clv_out_is_reset_zero (W A B : ℕ) :
    evaluate W A B AluFunc.CLC =
      { OUT := 0, zero := true, carry := false, negative := false,
        overflow := false, signed := false } ∧
    evaluate W A B AluFunc.CLV =
      { OUT := 0, zero := true, carry := false, negative := false,
        overflow := false, signed := false } := by
  constructor <;> simp [evaluate, aluSwitch, AluFunc.ADD, AluFunc.SUB,
    AluFunc.NEG, AluFunc.AND, AluFunc.OR, AluFunc.ROL, AluFunc.ROR,
    AluFunc.LSL, AluFunc.LSR, AluFunc.ASR, AluFunc.CLC, AluFunc.CLV]

/-- C7: every opcode without its own case (NONE = 0 included) falls to the
switch's default: evaluation still yields a result (the embedding is a total
function, mirroring the total combinational logic), with `OUT = A` and the
undriven `carry` and `overflow` settling to their reset value `0`. -/
theorem default_case_passthrough (W A B func : ℕ)
    (h1 : func ≠ AluFunc.ADD) (h2 : func ≠ AluFunc.SUB)
    (h3 : func ≠ AluFunc.NEG) (h4 : func ≠ AluFunc.AND)
    (h5 : func ≠ AluFunc.OR) (h6 : func ≠ AluFunc.ROL)
    (h7 : func ≠ AluFunc.ROR) (h8 : func ≠ AluFunc.LSL)
    (h9 : func ≠ AluFunc.LSR) (h10 : func ≠ AluFunc.ASR)
    (h11 : func ≠ AluFunc.CLC) (h12 : func ≠ AluFunc.CLV) :
    (evaluate W A B func).OUT = A ∧
    (evaluate W A B func).carry = false ∧
    (evaluate W A B func).overflow = false := by
  refine ⟨?_, ?_, ?_⟩ <;>
    simp [evaluate, aluSwitch, h1, h2, h3, h4, h5, h6, h7, h8, h9, h10, h11, h12]

theorem default_case_passthrough_witness :
    (evaluate 8 3 55 AluFunc.NONE).OUT = 3 ∧
    (evaluate 8 3 55 AluFunc.NONE).carry = false ∧
    (evaluate 8 3 55 AluFunc.NONE).overflow = false :=
  default_case_passthrough 8 3 55 AluFunc.NONE (by decide) (by decide)
    (by decide) (by decide) (by decide) (by decide) (by decide) (by decide)
    (by decide) (by decide) (by decide) (by decide)

/-- C1: ADD produces `OUT = (A+B) mod 2^W`, `carry = bit W of (A+B)`, and
`overflow = 1` iff `A` and `B` have equal sign bits while `OUT`'s sign bit
differs from theirs; at `W = 8`, `A = 0b01111111`, `B = 0b00000001` this gives
`OUT = 0b10000000`, `carry = 0`, `overflow = 1`, `negative = 1`. -/
theorem add_spec (W A B : ℕ) (hW : 1 ≤ W) (hA : A < 2 ^ W) (hB : B < 2 ^ W) :
    (evaluate W A B AluFunc.ADD).OUT = (A + B) % 2 ^ W ∧
    (evaluate W A B AluFunc.ADD).carry = (A + B).testBit W ∧
    ((evaluate W A B AluFunc.ADD).overflow = true ↔
      (A.testBit (W - 1) = B.testBit (W - 1) ∧
        A.testBit (W - 1) ≠ (evaluate W A B AluFunc.ADD).OUT.testBit (W - 1))) ∧
    (evaluate 8 127 1 AluFunc.ADD).OUT = 128 ∧
    (evaluate 8 127 1 AluFunc.ADD).carry = false ∧
    (evaluate 8 127 1 AluFunc.ADD).overflow = true ∧
    (evaluate 8 127 1 AluFunc.ADD).negative = true := by
  refine ⟨rfl, rfl, ?_, by decide, by decide, by decide, by decide⟩
  have hov : (evaluate W A B AluFunc.ADD).overflow =
      ((A.testBit (W - 1) == B.testBit (W - 1)) &&
        (A.testBit (W - 1) != (evaluate W A B AluFunc.ADD).OUT.testBit (W - 1))) := rfl
  rw [hov]
  simp only [Bool.and_eq_true, beq_iff_eq, bne_iff_ne, ne_eq]

theorem add_spec_witness :
    (evaluate 8 127 1 AluFunc.ADD).OUT = (127 + 1) % 2 ^ 8 ∧
    (evaluate 8 127 1 AluFunc.ADD).carry = (127 + 1).testBit 8 ∧
    ((evaluate 8 127 1 AluFunc.ADD).overflow = true ↔
      ((127 : ℕ).testBit 7 = (1 : ℕ).testBit 7 ∧
        (127 : ℕ).testBit 7 ≠ (evaluate 8 127 1 AluFunc.ADD).OUT.testBit 7)) ∧
    (evaluate 8 127 1 AluFunc.ADD).OUT = 128 ∧
    (evaluate 8 127 1 AluFunc.ADD).carry = false ∧
    (evaluate 8 127 1 AluFunc.ADD).overflow = true ∧
    (evaluate 8 127 1 AluFunc.ADD).negative = true :=
  add_spec 8 127 1 (by decide) (by decide) (by decide)

/-- C8: NEG computes the bitwise one's-complement of `A` inside `W` bits,
`(~A) mod 2^W = 2^W - 1 - A` — not the arithmetic negation `(-A) mod 2^W` —
with `carry = 0` and `overflow = 0`. -/
theorem neg_is_bitwise_not (W A B : ℕ) (hW : 1 ≤ W) (hA : A < 2 ^ W) :
    (evaluate W A B AluFunc.NEG).OUT = 2 ^ W - 1 - A ∧
    ((evaluate W A B AluFunc.NEG).OUT : ℤ) = (-(A : ℤ) - 1) % 2 ^ W ∧
    ((evaluate W A B AluFunc.NEG).OUT : ℤ) ≠ (-(A : ℤ)) % 2 ^ W ∧
    (evaluate W A B AluFunc.NEG).carry = false ∧
    (evaluate W A B AluFunc.NEG).overflow = false := by
  have hout : (evaluate W A B AluFunc.NEG).OUT = 2 ^ W - 1 - A := rfl
  have hpow : (1 : ℤ) < 2 ^ W := by
    calc (1 : ℤ) < 2 ^ 1 := by norm_num
    _ ≤ 2 ^ W := by exact pow_le_pow_right₀ (by norm_num) hW
  have hAz : (A : ℤ) < 2 ^ W := by exact_mod_cast hA
  have hcast : ((2 ^ W - 1 - A : ℕ) : ℤ) = 2 ^ W - 1 - A := by
    have h1 : A ≤ 2 ^ W - 1 := by omega
    have h2 : 1 ≤ 2 ^ W := Nat.one_le_two_pow
    push_cast [Nat.cast_sub h1, Nat.cast_sub h2]
    ring
  have hmodneg : (-(A : ℤ) - 1) % 2 ^ W = 2 ^ W - 1 - A := by
    have he : -(A : ℤ) - 1 = (2 ^ W - 1 - A) + 2 ^ W * (-1) := by ring
    rw [he, Int.add_mul_emod_self_left, Int.emod_eq_of_lt (by omega) (by omega)]
  refine ⟨hout, by rw [hout, hcast, hmodneg], ?_, rfl, rfl⟩
  rw [hout, hcast]
  rcases Nat.eq_zero_or_pos A with hz | hpos
  · subst hz
    simp only [Nat.cast_zero, neg_zero, Int.zero_emod]
    omega
  · have hApos : (0 : ℤ) < A := by exact_mod_cast hpos
    have he : -(A : ℤ) = (2 ^ W - A) + 2 ^ W * (-1) := by ring
    rw [he, Int.add_mul_emod_self_left, Int.emod_eq_of_lt (by omega) (by omega)]
    omega

/-- C2: SUB produces `OUT = (A−B) mod 2^W`; `carry` is bit W of the (W+1)-bit
two's-complement pattern of `A−B` — equivalently the borrow, set exactly when
`A < B` — and `overflow = 1` iff `A` and `B` have differing sign bits and
`OUT`'s sign bit differs from `A`'s. -/
theorem sub_spec (W A B : ℕ) (hW : 1 ≤ W) (hA : A < 2 ^ W) (hB : B < 2 ^ W) :
    ((evaluate W A B AluFunc.SUB).OUT : ℤ) = ((A : ℤ) - B) % 2 ^ W ∧
    (evaluate W A B AluFunc.SUB).carry =
      ((((A : ℤ) - B) % 2 ^ (W + 1)).toNat).testBit W ∧
    ((evaluate W A B AluFunc.SUB).carry = true ↔ A < B) ∧
    ((evaluate W A B AluFunc.SUB).overflow = true ↔
      (A.testBit (W - 1) ≠ B.testBit (W - 1) ∧
        A.testBit (W - 1) ≠ (evaluate W A B AluFunc.SUB).OUT.testBit (W - 1))) := by
  have hps : 2 ^ (W + 1) = 2 ^ W * 2 := pow_succ 2 W
  have hBle : B ≤ A + 2 ^ W := by omega
  have hBle2 : B ≤ A + 2 ^ (W + 1) := by omega
  have hout_int : ((evaluate W A B AluFunc.SUB).OUT : ℤ) =
      ((A : ℤ) - B) % 2 ^ W := by
    have h0 : (evaluate W A B AluFunc.SUB).OUT = (A + 2 ^ W - B) % 2 ^ W := rfl
    rw [h0]
    push_cast [Nat.cast_sub hBle]
    have he : (A : ℤ) + 2 ^ W - B = ((A : ℤ) - B) + 2 ^ W * 1 := by ring
    rw [he, Int.add_mul_emod_self_left]
  have hcarry_nat : (evaluate W A B AluFunc.SUB).carry =
      ((A + 2 ^ (W + 1) - B) % 2 ^ (W + 1)).testBit W := rfl
  have hnat_int : ((A + 2 ^ (W + 1) - B) % 2 ^ (W + 1) : ℕ) =
      (((A : ℤ) - B) % 2 ^ (W + 1)).toNat := by
    have h1 : (((A + 2 ^ (W + 1) - B) % 2 ^ (W + 1) : ℕ) : ℤ) =
        ((A : ℤ) - B) % 2 ^ (W + 1) := by
      push_cast [Nat.cast_sub hBle2]
      have he : (A : ℤ) + 2 ^ (W + 1) - B = ((A : ℤ) - B) + 2 ^ (W + 1) * 1 := by
        ring
      rw [he, Int.add_mul_emod_self_left]
    omega
  have hcarry_iff :
      ((A + 2 ^ (W + 1) - B) % 2 ^ (W + 1)).testBit W = true ↔ A < B := by
    rcases Nat.lt_or_ge A B with hlt | hge
    · have hval : (A + 2 ^ (W + 1) - B) % 2 ^ (W + 1) = A + 2 ^ (W + 1) - B :=
        Nat.mod_eq_of_lt (by omega)
      rw [hval]
      refine ⟨fun _ => hlt, fun _ => ?_⟩
      have he : A + 2 ^ (W + 1) - B = 2 ^ W + (A + 2 ^ W - B) := by omega
      rw [he, Nat.testBit_two_pow_add_eq, Nat.testBit_lt_two_pow (by omega)]
      rfl
    · have hval : (A + 2 ^ (W + 1) - B) % 2 ^ (W + 1) = A - B := by
        have he : A + 2 ^ (W + 1) - B = (A - B) + 2 ^ (W + 1) := by omega
        rw [he, Nat.add_mod_right]
        exact Nat.mod_eq_of_lt (by omega)
      rw [hval, Nat.testBit_lt_two_pow (by omega)]
      simp
      omega
  have hov : (evaluate W A B AluFunc.SUB).overflow =
      ((A.testBit (W - 1) != B.testBit (W - 1)) &&
        (A.testBit (W - 1) != (evaluate W A B AluFunc.SUB).OUT.testBit (W - 1))) :=
    rfl
  refine ⟨hout_int, ?_, ?_, ?_⟩
  · rw [hcarry_nat, hnat_int]
  · rw [hcarry_nat]
    exact hcarry_iff
  · rw [hov]
    simp only [Bool.and_eq_true, bne_iff_ne, ne_eq]

theorem sub_spec_witness :
    ((evaluate 8 5 9 AluFunc.SUB).OUT : ℤ) = ((5 : ℤ) - 9) % 2 ^ 8 ∧
    (evaluate 8 5 9 AluFunc.SUB).carry =
      ((((5 : ℤ) - 9) % 2 ^ 9).toNat).testBit 8 ∧
    ((evaluate 8 5 9 AluFunc.SUB).carry = true ↔ 5 < 9) ∧
    ((evaluate 8 5 9 AluFunc.SUB).overflow = true ↔
      ((5 : ℕ).testBit 7 ≠ (9 : ℕ).testBit 7 ∧
        (5 : ℕ).testBit 7 ≠ (evaluate 8 5 9 AluFunc.SUB).OUT.testBit 7)) :=
  sub_spec 8 5 9 (by decide) (by decide) (by decide)

/-- `Alu.__init__` from `src/alu.py` takes a width `size` (default 8) and only
constructs `Signal`s — `Signal(size)` for `A`, `B` and `OUT`, `Signal(AluFunc)`
for the selector, and 1-bit `Signal()`s for the flags — with no width
validation of its own.  Per the nmigen library (external to this repository),
`Signal(width)` accepts every non-negative integer width, zero included, and
raises for a negative one; that library check is the only way construction can
fail.  `some size` models a successfully constructed instance, `none` a
constructor exception. -/
def aluInit (size : ℤ) : Option ℤ := if size < 0 then none else some size

/-- C10, counterexample: constructing with width `0 < 1` succeeds (nothing in
`__init__` checks the width, and zero-width signals are legal), so a width
below 1 is not rejected at construction time. -/
theorem alu_init_width_zero_accepted : aluInit 0 = some 0 ∧ (0 : ℤ) < 1 := by
  constructor
  · rfl
  · decide

/-- C10, amended: construction rejects exactly the negative widths (the
`Signal` constructor's non-negativity check, the only check that runs);
every width `W ≥ 0` is accepted at construction — including `W = 0`, whose
invalid bit index `W − 1` would only surface later, at elaboration — and in
particular every `W ≥ 1` succeeds. -/
theorem alu_init_rejects_iff_negative (z : ℤ) :
    (aluInit z = none ↔ z < 0) ∧ (aluInit z = some z ↔ 0 ≤ z) := by
  rcases lt_or_ge z 0 with h | h
  · rw [aluInit, if_pos h]
    constructor
    · exact ⟨fun _ => h, fun _ => rfl⟩
    · exact ⟨fun hc => absurd hc (by simp), fun hc => absurd hc (by omega)⟩
  · rw [aluInit, if_neg (by omega)]
    constructor
    · exact ⟨fun hc => absurd hc (by simp), fun hc => absurd hc (by omega)⟩
    · exact ⟨fun _ => h, fun _ => rfl⟩

/-- The low bit of `A` as a value. -/
lemma toNat_testBit_low (A : ℕ) : (A.testBit 0).toNat = A % 2 := by
  rw [Nat.testBit_zero]
  rcases Nat.mod_two_eq_zero_or_one A with h | h <;> simp [h]

/-- The top bit of a W-bit value as the value `A / 2 ^ (W - 1)`. -/
lemma toNat_testBit_high (W A : ℕ) (hW : 1 ≤ W) (hA : A < 2 ^ W) :
    (A.testBit (W - 1)).toNat = A / 2 ^ (W - 1) := by
  have hpos : 0 < 2 ^ (W - 1) := Nat.two_pow_pos _
  have hsplit : 2 ^ W = 2 ^ (W - 1) * 2 := by
    rw [← pow_succ]
    congr 1
    omega
  have hdiv : A / 2 ^ (W - 1) < 2 := by
    rw [Nat.div_lt_iff_lt_mul hpos]
    omega
  rw [Nat.testBit_to_div_mod, Nat.mod_eq_of_lt hdiv]
  rcases Nat.le_one_iff_eq_zero_or_eq_one.mp (Nat.lt_succ_iff.mp hdiv) with h | h <;>
    simp [h]

/-- Arithmetic core of the left rotate: rotating the split `k·hi + lo` left
inside `k·2` moves `hi` to the bottom. -/
lemma rol_arith (k hi lo : ℕ) (hhi : hi ≤ 1) (hlo : lo < k) :
    ((k * hi + lo) * 2 + hi) % (k * 2) = 2 * lo + hi := by
  have he : (k * hi + lo) * 2 + hi = (k * 2) * hi + (2 * lo + hi) := by ring
  rw [he, Nat.mul_add_mod]
  exact Nat.mod_eq_of_lt (by omega)

/-- The settled ROL output: the carry it reads is the one it drives in the
same combinational pass (bit W−1 of `A`), so the result is a pure left
rotate of `A`. -/
lemma rol_out_eq (W A B : ℕ) (hW : 1 ≤ W) (hA : A < 2 ^ W) :
    (evaluate W A B AluFunc.ROL).OUT =
      2 * (A % 2 ^ (W - 1)) + A / 2 ^ (W - 1) := by
  have hpos : 0 < 2 ^ (W - 1) := Nat.two_pow_pos _
  have hsplit : 2 ^ W = 2 ^ (W - 1) * 2 := by
    rw [← pow_succ]
    congr 1
    omega
  have hdm : 2 ^ (W - 1) * (A / 2 ^ (W - 1)) + A % 2 ^ (W - 1) = A :=
    Nat.div_add_mod A (2 ^ (W - 1))
  have hlo : A % 2 ^ (W - 1) < 2 ^ (W - 1) := Nat.mod_lt _ hpos
  have hhi : A / 2 ^ (W - 1) ≤ 1 := by
    have h2 : A / 2 ^ (W - 1) < 2 := by
      rw [Nat.div_lt_iff_lt_mul hpos]
      omega
    omega
  have hout : (evaluate W A B AluFunc.ROL).OUT =
      ((A <<< 1) ||| (A.testBit (W - 1)).toNat) % 2 ^ W := rfl
  have hor : (A <<< 1) ||| (A.testBit (W - 1)).toNat =
      A * 2 + (A.testBit (W - 1)).toNat := by
    have hlt : (A.testBit (W - 1)).toNat < 2 ^ 1 := by
      cases h : A.testBit (W - 1) <;> simp
    have h := Nat.mul_add_lt_is_or hlt A
    rw [Nat.shiftLeft_eq, pow_one]
    rw [pow_one] at h
    rw [Nat.mul_comm] at h
    exact h.symm
  have harith := rol_arith (2 ^ (W - 1)) (A / 2 ^ (W - 1)) (A % 2 ^ (W - 1))
      hhi hlo
  rw [Nat.div_add_mod] at harith
  rw [hout, hor, toNat_testBit_high W A hW hA, hsplit]
  exact harith

/-- The settled ROR output: likewise a pure right rotate of `A`. -/
lemma ror_out_eq (W A B : ℕ) (hW : 1 ≤ W) (hA : A < 2 ^ W) :
    (evaluate W A B AluFunc.ROR).OUT = 2 ^ (W - 1) * (A % 2) + A / 2 := by
  have hpos : 0 < 2 ^ (W - 1) := Nat.two_pow_pos _
  have hsplit : 2 ^ W = 2 ^ (W - 1) * 2 := by
    rw [← pow_succ]
    congr 1
    omega
  have hdiv : A / 2 < 2 ^ (W - 1) := by
    rw [Nat.div_lt_iff_lt_mul (by norm_num)]
    omega
  have hout : (evaluate W A B AluFunc.ROR).OUT =
      (A >>> 1) ||| ((A.testBit 0).toNat <<< (W - 1)) % 2 ^ W := rfl
  have hsh : ((A.testBit 0).toNat <<< (W - 1)) % 2 ^ W =
      2 ^ (W - 1) * (A.testBit 0).toNat := by
    rw [Nat.shiftLeft_eq, Nat.mul_comm]
    refine Nat.mod_eq_of_lt ?_
    have : (A.testBit 0).toNat ≤ 1 := by cases A.testBit 0 <;> simp
    calc 2 ^ (W - 1) * (A.testBit 0).toNat ≤ 2 ^ (W - 1) * 1 :=
      Nat.mul_le_mul_left _ this
    _ < 2 ^ W := by omega
  have hor : (A >>> 1) ||| 2 ^ (W - 1) * (A.testBit 0).toNat =
      2 ^ (W - 1) * (A.testBit 0).toNat + A / 2 := by
    rw [Nat.shiftRight_eq_div_pow, pow_one, Nat.lor_comm]
    exact (Nat.mul_add_lt_is_or hdiv _).symm
  rw [hout, hsh, hor, toNat_testBit_low]

/-- The ROL spec model from the claim's words: rotate-through-carry with an
externally supplied incoming carry feeding bit 0 of the result
(`((A << 1) | carryIn)` truncated to W bits).  Stated for comparison with
`evaluate`: the hardware's combinational `carry` is an output, not an input,
so `evaluate` takes no such parameter. -/
def rolSpecOut (W A : ℕ) (carryIn : Bool) : ℕ :=
  ((A <<< 1) ||| carryIn.toNat) % 2 ^ W

/-- C4, counterexample: at `W = 8`, `A = 0b10000000` the code's ROL output is
`1` — bit 0 is the concurrently driven carry-out, bit W−1 of `A` — whereas the
claim's rotate-through-carry with an externally supplied (reset-value `0`)
incoming carry would give `0`.  The code's output is a pure rotate of `A`
alone, independent of any external carry state. -/
theorem rol_carry_in_counterexample :
    (evaluate 8 128 0 AluFunc.ROL).OUT = 1 ∧
    rolSpecOut 8 128 false = 0 ∧
    (evaluate 8 128 0 AluFunc.ROL).OUT ≠ rolSpecOut 8 128 false := by
  decide

/-- C4, amended: ROL and ROR read the combinationally driven `carry`, which
the same case drives to bit W−1 of `A` (ROL) or bit 0 of `A` (ROR); the
settled outputs are therefore pure rotates of `A` alone —
`OUT = 2·(A mod 2^(W−1)) + A div 2^(W−1)` for ROL and
`OUT = 2^(W−1)·(A mod 2) + A div 2` for ROR — with outgoing carry bit W−1 of
pre-shift `A` (ROL) and bit 0 of pre-shift `A` (ROR); there is no externally
supplied incoming carry. -/
theorem rol_ror_pure_rotate (W A B : ℕ) (hW : 1 ≤ W) (hA : A < 2 ^ W) :
    (evaluate W A B AluFunc.ROL).OUT =
      2 * (A % 2 ^ (W - 1)) + A / 2 ^ (W - 1) ∧
    (evaluate W A B AluFunc.ROL).carry = A.testBit (W - 1) ∧
    (evaluate W A B AluFunc.ROR).OUT = 2 ^ (W - 1) * (A % 2) + A / 2 ∧
    (evaluate W A B AluFunc.ROR).carry = A.testBit 0 :=
  ⟨rol_out_eq W A B hW hA, rfl, ror_out_eq W A B hW hA, rfl⟩

theorem rol_ror_pure_rotate_witness :
    (evaluate 8 0b11001010 0 AluFunc.ROL).OUT =
      2 * (0b11001010 % 2 ^ 7) + 0b11001010 / 2 ^ 7 ∧
    (evaluate 8 0b11001010 0 AluFunc.ROL).carry = (0b11001010 : ℕ).testBit 7 ∧
    (evaluate 8 0b11001010 0 AluFunc.ROR).OUT =
      2 ^ 7 * (0b11001010 % 2) + 0b11001010 / 2 ∧
    (evaluate 8 0b11001010 0 AluFunc.ROR).carry = (0b11001010 : ℕ).testBit 0 :=
  rol_ror_pure_rotate 8 0b11001010 0 (by decide) (by decide)

/-- C5: applying ROL and then ROR to the resulting OUT restores `A`; the
carry produced by ROL (bit W−1 of `A`) is exactly the carry the ROR step
consumes (bit 0 of its operand), so the propagation matches by itself. -/
theorem rol_then_ror_round_trip (W A B B2 : ℕ) (hW : 1 ≤ W) (hA : A < 2 ^ W) :
    (evaluate W (evaluate W A B AluFunc.ROL).OUT B2 AluFunc.ROR).OUT = A ∧
    ((evaluate W A B AluFunc.ROL).OUT).testBit 0 =
      (evaluate W A B AluFunc.ROL).carry := by
  have hpos : 0 < 2 ^ (W - 1) := Nat.two_pow_pos _
  have hsplit : 2 ^ W = 2 ^ (W - 1) * 2 := by
    rw [← pow_succ]
    congr 1
    omega
  have hdm : 2 ^ (W - 1) * (A / 2 ^ (W - 1)) + A % 2 ^ (W - 1) = A :=
    Nat.div_add_mod A (2 ^ (W - 1))
  have hlo : A % 2 ^ (W - 1) < 2 ^ (W - 1) := Nat.mod_lt _ hpos
  have hhi : A / 2 ^ (W - 1) ≤ 1 := by
    have h2 : A / 2 ^ (W - 1) < 2 := by
      rw [Nat.div_lt_iff_lt_mul hpos]
      omega
    omega
  have hX := rol_out_eq W A B hW hA
  have htop := toNat_testBit_high W A hW hA
  obtain ⟨hi, hhi_eq⟩ : ∃ n, A / 2 ^ (W - 1) = n := ⟨_, rfl⟩
  obtain ⟨lo, hlo_eq⟩ : ∃ n, A % 2 ^ (W - 1) = n := ⟨_, rfl⟩
  rw [hhi_eq] at hdm hhi hX htop
  rw [hlo_eq] at hdm hlo hX
  have hXlt : (evaluate W A B AluFunc.ROL).OUT < 2 ^ W := by
    rw [hX, hsplit]
    omega
  constructor
  · rw [ror_out_eq W _ B2 hW hXlt, hX]
    have h2 : (2 * lo + hi) % 2 = hi := by omega
    have h3 : (2 * lo + hi) / 2 = lo := by omega
    rw [h2, h3, hdm]
  · have hc : (evaluate W A B AluFunc.ROL).carry = A.testBit (W - 1) := rfl
    have hmod : (evaluate W A B AluFunc.ROL).OUT % 2 = hi := by
      rw [hX]
      omega
    rw [Nat.testBit_zero, hmod, hc]
    cases h : A.testBit (W - 1)
    · rw [h] at htop
      simp only [Bool.toNat_false] at htop
      simp [← htop]
    · rw [h] at htop
      simp only [Bool.toNat_true] at htop
      simp [← htop]

theorem rol_then_ror_round_trip_witness :
    (evaluate 8 (evaluate 8 0b10110001 0 AluFunc.ROL).OUT 0 AluFunc.ROR).OUT =
      0b10110001 ∧
    ((evaluate 8 0b10110001 0 AluFunc.ROL).OUT).testBit 0 =
      (evaluate 8 0b10110001 0 AluFunc.ROL).carry :=
  rol_then_ror_round_trip 8 0b10110001 0 0 (by decide) (by decide)

/-- C9: ASR shifts the low W−1 bits of `A` right by one and sets bit W−1 of
the result to the original bit W−1 of `A`, with carry-out bit 0 of pre-shift
`A`; in particular bit W−1 of OUT equals bit W−1 of `A`, so the sign is
preserved. -/
theorem asr_spec (W A B : ℕ) (hW : 1 ≤ W) (hA : A < 2 ^ W) :
    (evaluate W A B AluFunc.ASR).OUT =
      2 ^ (W - 1) * (A.testBit (W - 1)).toNat + (A % 2 ^ (W - 1)) / 2 ∧
    (evaluate W A B AluFunc.ASR).OUT.testBit (W - 1) = A.testBit (W - 1) ∧
    (evaluate W A B AluFunc.ASR).carry = A.testBit 0 ∧
    (A.testBit (W - 1) = true →
      (evaluate W A B AluFunc.ASR).OUT.testBit (W - 1) = true) := by
  have hpos : 0 < 2 ^ (W - 1) := Nat.two_pow_pos _
  have hsplit : 2 ^ W = 2 ^ (W - 1) * 2 := by
    rw [← pow_succ]
    congr 1
    omega
  have hlow : (A % 2 ^ (W - 1)) / 2 < 2 ^ (W - 1) := by
    have : A % 2 ^ (W - 1) < 2 ^ (W - 1) := Nat.mod_lt _ hpos
    omega
  have hout : (evaluate W A B AluFunc.ASR).OUT =
      (((A % 2 ^ (W - 1)) >>> 1) |||
        (A.testBit (W - 1)).toNat <<< (W - 1)) % 2 ^ W := rfl
  have hor : ((A % 2 ^ (W - 1)) >>> 1) |||
      (A.testBit (W - 1)).toNat <<< (W - 1) =
      2 ^ (W - 1) * (A.testBit (W - 1)).toNat + (A % 2 ^ (W - 1)) / 2 := by
    rw [Nat.shiftRight_eq_div_pow, pow_one, Nat.shiftLeft_eq, Nat.mul_comm,
      Nat.lor_comm]
    exact (Nat.mul_add_lt_is_or hlow _).symm
  have htop : (A.testBit (W - 1)).toNat ≤ 1 := by cases A.testBit (W - 1) <;> simp
  have hlt : 2 ^ (W - 1) * (A.testBit (W - 1)).toNat + (A % 2 ^ (W - 1)) / 2 <
      2 ^ W := by
    calc 2 ^ (W - 1) * (A.testBit (W - 1)).toNat + (A % 2 ^ (W - 1)) / 2 ≤
        2 ^ (W - 1) * 1 + (A % 2 ^ (W - 1)) / 2 := by
          exact Nat.add_le_add_right (Nat.mul_le_mul_left _ htop) _
    _ < 2 ^ W := by omega
  have houteq : (evaluate W A B AluFunc.ASR).OUT =
      2 ^ (W - 1) * (A.testBit (W - 1)).toNat + (A % 2 ^ (W - 1)) / 2 := by
    rw [hout, hor, Nat.mod_eq_of_lt hlt]
  have hbit : (evaluate W A B AluFunc.ASR).OUT.testBit (W - 1) =
      A.testBit (W - 1) := by
    rw [houteq, Nat.testBit_mul_pow_two_add _ hlow]
    simp only [lt_self_iff_false, if_false, Nat.sub_self]
    rw [Nat.testBit_zero]
    cases A.testBit (W - 1) <;> simp
  exact ⟨houteq, hbit, rfl, fun h => by rw [hbit, h]⟩

theorem asr_spec_witness :
    (evaluate 8 0b10010011 0 AluFunc.ASR).OUT =
      2 ^ 7 * ((0b10010011 : ℕ).testBit 7).toNat + (0b10010011 % 2 ^ 7) / 2 ∧
    (evaluate 8 0b10010011 0 AluFunc.ASR).OUT.testBit 7 =
      (0b10010011 : ℕ).testBit 7 ∧
    (evaluate 8 0b10010011 0 AluFunc.ASR).carry = (0b10010011 : ℕ).testBit 0 ∧
    ((0b10010011 : ℕ).testBit 7 = true →
      (evaluate 8 0b10010011 0 AluFunc.ASR).OUT.testBit 7 = true) :=
  asr_spec 8 0b10010011 0 (by decide) (by decide)

theorem neg_is_bitwise_not_witness :
    (evaluate 8 0x55 0 AluFunc.NEG).OUT = 2 ^ 8 - 1 - 0x55 ∧
    ((evaluate 8 0x55 0 AluFunc.NEG).OUT : ℤ) = (-(0x55 : ℤ) - 1) % 2 ^ 8 ∧
    ((evaluate 8 0x55 0 AluFunc.NEG).OUT : ℤ) ≠ (-(0x55 : ℤ)) % 2 ^ 8 ∧
    (evaluate 8 0x55 0 AluFunc.NEG).carry = false ∧
    (evaluate 8 0x55 0 AluFunc.NEG).overflow = false := by
  have h := neg_is_bitwise_not 8 0x55 0 (by decide) (by decide)
  simpa using h
